import Mathlib

/-!
Verification development for the Iterative Consensus Engine of the
fault-localization experiment pipeline.

The Python sources embedded here (shallowly, as executable Lean functions) are:
  * `Experiment_code/evaluation.py` : `normalize_method`, `evaluate_bug`,
    and the numeric core of `generate_evaluation_report`;
  * `Experiment_code/engine.py` : `extract_top_k_methods`,
    `run_zero_shot_iterative`, `run_self_consistency`, `_aggregate_results`.

Modelling conventions:
  * Python `str` is modelled by `String` / `List Char`; `str.lower()` is
    modelled ASCII-only (`lowerChar`), `str.strip()` strips ASCII whitespace;
  * Python `float` arithmetic on the small metric values is modelled by `ℚ`;
  * Python sets of strings are modelled by deduplicated lists (all uses are
    order-independent: membership and cardinality);
  * Python dicts that preserve insertion order are modelled by association
    lists with append-at-end insertion;
  * `list.sort(key=...)`, a stable sort, is modelled by the stable
    `List.insertionSort`;
  * the external LLM oracle is modelled by the list of responses one run
    observes (one entry per call the loop makes).
-/

/-! ## Characters and strings: `str.strip`, `str.lower`, substring search -/

/-- Whitespace as recognised by Python's `str.strip()` (ASCII fragment:
space, tab, newline, carriage return, vertical tab, form feed). -/
def isSpaceChar (c : Char) : Bool :=
  c = ' ' || c = '\t' || c = '\n' || c = '\r' || c.toNat = 11 || c.toNat = 12

/-- Python `s.strip()` on a character list: drop whitespace on both ends. -/
def trimChars (cs : List Char) : List Char :=
  (((cs.dropWhile isSpaceChar).reverse).dropWhile isSpaceChar).reverse

/-- Python `s.strip()` on `String`. -/
def pyStrip (s : String) : String := ⟨trimChars s.data⟩

/-- The 26 ASCII uppercase letters. -/
def upperChars : List Char :=
  ['A', 'B', 'C', 'D', 'E', 'F', 'G', 'H', 'I', 'J', 'K', 'L', 'M',
   'N', 'O', 'P', 'Q', 'R', 'S', 'T', 'U', 'V', 'W', 'X', 'Y', 'Z']

/-- Python `str.lower()` on one character (ASCII fragment). -/
def lowerChar : Char → Char
  | 'A' => 'a' | 'B' => 'b' | 'C' => 'c' | 'D' => 'd' | 'E' => 'e' | 'F' => 'f'
  | 'G' => 'g' | 'H' => 'h' | 'I' => 'i' | 'J' => 'j' | 'K' => 'k' | 'L' => 'l'
  | 'M' => 'm' | 'N' => 'n' | 'O' => 'o' | 'P' => 'p' | 'Q' => 'q' | 'R' => 'r'
  | 'S' => 's' | 'T' => 't' | 'U' => 'u' | 'V' => 'v' | 'W' => 'w' | 'X' => 'x'
  | 'Y' => 'y' | 'Z' => 'z'
  | c => c

/-- Python `sep in s` (substring containment) for nonempty `sep`;
for `sep = []` it is `true` on every string, like Python's `"" in s`. -/
def subOcc (sep : List Char) : List Char → Bool
  | [] => sep.isEmpty
  | c :: rest => sep.isPrefixOf (c :: rest) || subOcc sep rest

/-- Python `s.rsplit(sep, 1)[-1]` when `sep` occurs in `s`: the suffix of `s`
strictly after the last (rightmost-starting) occurrence of `sep`.
When `sep` does not occur the result is `[]`; callers guard with `subOcc`. -/
def afterLastGo (sep : List Char) : List Char → List Char
  | [] => []
  | c :: rest =>
    if subOcc sep rest then afterLastGo sep rest
    else if sep.isPrefixOf (c :: rest) then (c :: rest).drop sep.length
    else afterLastGo sep rest

/-- One pass of the loop body in `normalize_method`:
`if sep in method: method = method.rsplit(sep, 1)[-1]`. -/
def stripSep (sep m : List Char) : List Char :=
  if subOcc sep m then afterLastGo sep m else m

/-- The separator priority list `["#", "::", "."]` of `normalize_method`. -/
def sepList : List (List Char) := [['#'], [':', ':'], ['.']]

/-- The `for sep in ["#", "::", "."]` loop of `normalize_method`:
every separator that occurs is applied, cumulatively. -/
def sepStripAll (m : List Char) : List Char :=
  sepList.foldl (fun acc sep => stripSep sep acc) m

/-- The step `if "(" in method: method = method.split("(")[0]` of
`normalize_method`: keep the part before the first `(`. -/
def parenStrip (m : List Char) : List Char :=
  if subOcc ['('] m then m.takeWhile (fun c => c ≠ '(') else m

/-- Character-list core of `normalize_method`. -/
def normChars (cs : List Char) : List Char :=
  (parenStrip (sepStripAll (trimChars cs))).map lowerChar

/-- Embeds `evaluation.normalize_method`: strip whitespace, apply each of the
separators `"#"`, `"::"`, `"."` in that order (keeping the part after the last
occurrence of each separator that is present), cut at the first `(`, and
lower-case. -/
def normalize_method (s : String) : String := ⟨normChars s.data⟩

/-- Reading of the C5 sentence of the specification (for comparison with the
code): stop at the *first* separator class that is present and do not apply
the remaining ones. -/
def normalizeFirstSepOnly (s : String) : String :=
  let m := trimChars s.data
  let m :=
    if subOcc ['#'] m then afterLastGo ['#'] m
    else if subOcc [':', ':'] m then afterLastGo [':', ':'] m
    else if subOcc ['.'] m then afterLastGo ['.'] m
    else m
  ⟨(parenStrip m).map lowerChar⟩

/-! ## Metrics evaluation (`evaluation.evaluate_bug`) -/

/-- Per-bug metrics record returned by `evaluate_bug`. -/
structure EvalResult where
  top_1 : Bool
  top_3 : Bool
  top_5 : Bool
  precision : ℚ
  «recall» : ℚ
  f1 : ℚ
  accuracy : ℚ
deriving DecidableEq

/-- The list `pred_norm = [normalize_method(m) for m in predicted[:k]]`. -/
def predNormOf (predicted : List String) (k : Nat) : List String :=
  (predicted.take k).map normalize_method

/-- The set `actual_norm = {normalize_method(m) for m in actual}`; the Python
set of strings is modelled as a deduplicated list. -/
def actualNormOf (actual : List String) : List String :=
  (actual.map normalize_method).dedup

/-- The set `pred_set = set(pred_norm)`. -/
def predSetOf (predicted : List String) (k : Nat) : List String :=
  (predNormOf predicted k).dedup

/-- `tp = len(pred_set & actual_norm)`. -/
def tpOf (predicted actual : List String) (k : Nat) : Nat :=
  ((predSetOf predicted k).filter
    (fun m => decide (m ∈ actualNormOf actual))).length

/-- `fp = len(pred_set - actual_norm)`. -/
def fpOf (predicted actual : List String) (k : Nat) : Nat :=
  ((predSetOf predicted k).filter
    (fun m => decide (m ∉ actualNormOf actual))).length

/-- `fn = len(actual_norm - pred_set)`. -/
def fnOf (predicted actual : List String) (k : Nat) : Nat :=
  ((actualNormOf actual).filter
    (fun m => decide (m ∉ predSetOf predicted k))).length

/-- `tn = max(0, k - tp - fp)` (computed over `int`, hence the `Int` type). -/
def tnOf (predicted actual : List String) (k : Nat) : Int :=
  max 0 ((k : Int) - tpOf predicted actual k - fpOf predicted actual k)

/-- Embeds `evaluation.evaluate_bug(predicted, actual, k)`; `actual` is a
Python set of strings, modelled as a list considered up to deduplication. -/
def evaluate_bug (predicted : List String) (actual : List String) (k : Nat) :
    EvalResult :=
  let pred_norm := predNormOf predicted k
  let actual_norm := actualNormOf actual
  let tp := tpOf predicted actual k
  let fp := fpOf predicted actual k
  let fn := fnOf predicted actual k
  let tn := tnOf predicted actual k
  let precision : ℚ := if tp + fp > 0 then (tp : ℚ) / ((tp : ℚ) + (fp : ℚ)) else 0
  let «recall» : ℚ := if tp + fn > 0 then (tp : ℚ) / ((tp : ℚ) + (fn : ℚ)) else 0
  let f1 : ℚ :=
    if precision + «recall» > 0 then 2 * precision * «recall» / (precision + «recall»)
    else 0
  let accuracy : ℚ := if k > 0 then ((tp : ℚ) + (tn : ℚ)) / (k : ℚ) else 0
  { top_1 := (pred_norm.take 1).any (fun m => decide (m ∈ actual_norm))
    top_3 := (pred_norm.take 3).any (fun m => decide (m ∈ actual_norm))
    top_5 := (pred_norm.take 5).any (fun m => decide (m ∈ actual_norm))
    precision := precision
    «recall» := «recall»
    f1 := f1
    accuracy := accuracy }

/-! ## Report aggregation (numeric core of `generate_evaluation_report`) -/

/-- Per-project mean of one metric:
`sum(b[metric] for b in bugs) / n_bugs`. -/
def projectMean (f : EvalResult → ℚ) (bugs : List EvalResult) : ℚ :=
  (bugs.map f).sum / (bugs.length : ℚ)

/-- The accumulation loop of `generate_evaluation_report`: running
`(total_bugs, total_metric)` over the projects, where each non-empty project
contributes its bug count and `mean_metric * n_bugs`; an empty project is
skipped (`if n_bugs == 0: continue`). -/
def globalTotals (f : EvalResult → ℚ)
    (projects : List (String × List EvalResult)) : Nat × ℚ :=
  projects.foldl
    (fun acc pr =>
      if pr.2.length = 0 then acc
      else (acc.1 + pr.2.length, acc.2 + projectMean f pr.2 * (pr.2.length : ℚ)))
    (0, 0)

/-- The global summary line `total_metric / total_bugs` of
`generate_evaluation_report`. -/
def globalAverage (f : EvalResult → ℚ)
    (projects : List (String × List EvalResult)) : ℚ :=
  (globalTotals f projects).2 / (((globalTotals f projects).1 : Nat) : ℚ)

/-- Modelled from the spec wording of C3: the average of the per-project mean
metrics weighted by each project's bug count, written directly as a quotient
of sums. -/
def weightedMeanOfMeans (f : EvalResult → ℚ)
    (projects : List (String × List EvalResult)) : ℚ :=
  ((projects.map (fun pr => (pr.2.length : ℚ) * projectMean f pr.2)).sum) /
    (((projects.map (fun pr => pr.2.length)).sum : Nat) : ℚ)

/-- Modelled from the spec wording of C3: the pooled micro-average precision
recomputed from raw `tp`/`fp` counts of the individual bugs, which the report
does *not* use. Each bug is given as `(predicted, actual, k)`. -/
def pooledPrecision (bugs : List (List String × List String × Nat)) : ℚ :=
  let tps := (bugs.map (fun b => tpOf b.1 b.2.1 b.2.2)).sum
  let fps := (bugs.map (fun b => fpOf b.1 b.2.1 b.2.2)).sum
  (tps : ℚ) / ((tps : ℚ) + (fps : ℚ))

/-! ## JSON values and the response parser (`engine.extract_top_k_methods`) -/

/-- JSON values as produced by `json.loads` (numbers restricted to integers;
objects keep key order, as Python dicts do). -/
inductive Json where
  | null : Json
  | bool : Bool → Json
  | num : Int → Json
  | str : String → Json
  | arr : List Json → Json
  | obj : List (String × Json) → Json

/-- Python dict lookup `d.get(key)` on the associations of an object:
first match (keys of a parsed JSON object are unique). -/
def jLookup : List (String × Json) → String → Option Json
  | [], _ => none
  | (k, v) :: rest, key => if k = key then some v else jLookup rest key

/-- Python dict lookup with default: `d.get(key, default)`. -/
def jGetD (fields : List (String × Json)) (key : String) (dflt : Json) : Json :=
  (jLookup fields key).getD dflt

/-- Python truthiness of a JSON value (`if x:`). -/
def jTruthy : Json → Bool
  | .null => false
  | .bool b => b
  | .num n => decide (n ≠ 0)
  | .str s => decide (s ≠ "")
  | .arr xs => !xs.isEmpty
  | .obj fs => !fs.isEmpty

mutual

/-- Python `repr` of a JSON value, used by `str()` on containers. -/
def pyRepr : Json → String
  | .null => "None"
  | .bool b => if b then "True" else "False"
  | .num n => toString n
  | .str s => "'" ++ s ++ "'"
  | .arr xs => "[" ++ pyReprArr xs ++ "]"
  | .obj fs => "\x7b" ++ pyReprObj fs ++ "\x7d"

/-- Comma-separated `repr`s of the elements of a JSON array. -/
def pyReprArr : List Json → String
  | [] => ""
  | [x] => pyRepr x
  | x :: xs => pyRepr x ++ ", " ++ pyReprArr xs

/-- Comma-separated `'key': repr` pairs of a JSON object. -/
def pyReprObj : List (String × Json) → String
  | [] => ""
  | [(k, v)] => "'" ++ k ++ "': " ++ pyRepr v
  | (k, v) :: fs => "'" ++ k ++ "': " ++ pyRepr v ++ ", " ++ pyReprObj fs

end

/-- Python `str()` of a JSON value. -/
def pyToStr : Json → String
  | .str s => s
  | j => pyRepr j

/-- A parsed ranked candidate: the dict
`{"method": ..., "justification": ...}` built by the parser. -/
structure RankedCandidate where
  method : String
  justification : String
deriving DecidableEq

/-- The loop body of `extract_top_k_methods`: accepted entries are appended
to the accumulator `results` in order. -/
def extractGo : List Json → List RankedCandidate → List RankedCandidate
  | [], results => results
  | item :: rest, results =>
    match item with
    | .obj fs =>
      let methodJ :=
        if jTruthy (jGetD fs ("method") (.str "")) then jGetD fs ("method") (.str "")
        else jGetD fs ("method_name") (.str "")
      if jTruthy methodJ then
        extractGo rest (results ++
          [⟨pyStrip (pyToStr methodJ),
            pyStrip (pyToStr (jGetD fs ("justification") (.str "")))⟩])
      else extractGo rest results
    | _ => extractGo rest results

/-- Embeds `engine.extract_top_k_methods(response)`, taking the
`response.parsed_json` field (a JSON object given by its associations, or
`none`). Reads `top_k` (treating an absent key like the default `[]`, and a
non-list value as the empty result) and runs the collection loop. -/
def extract_top_k_methods (parsedJson : Option (List (String × Json))) :
    List RankedCandidate :=
  match parsedJson with
  | none => []
  | some fields =>
    match jLookup fields ("top_k") with
    | some (.arr xs) => extractGo xs []
    | some _ => []
    | none => extractGo [] []

/-- Modelled from the spec wording of C7 (amended): the acceptance test for
one `top_k` entry, as a single function. -/
def acceptEntry : Json → Option RankedCandidate
  | .obj fs =>
    let methodJ :=
      if jTruthy (jGetD fs ("method") (.str "")) then jGetD fs ("method") (.str "")
      else jGetD fs ("method_name") (.str "")
    if jTruthy methodJ then
      some ⟨pyStrip (pyToStr methodJ),
        pyStrip (pyToStr (jGetD fs ("justification") (.str "")))⟩
    else none
  | _ => none

/-! ## The LLM responses and the iterative refinement loop
(`engine.run_zero_shot_iterative`) -/

/-- One oracle response as the loop sees it: the `error` and `parsed_json`
fields of `LLMResponse`, plus the measured latency. -/
structure Resp where
  error : Option String
  parsedJson : Option (List (String × Json))
  latency : ℚ

/-- The failure test of the loops:
`if response.error and response.parsed_json is None` (a `None` or empty
`error` string is falsy). -/
def respFailed (r : Resp) : Bool :=
  decide (r.error.getD "" ≠ "") && r.parsedJson.isNone

/-- The error record `f"Iteration {iteration}: {response.error}"` (and its
`run_self_consistency` analogue with another prefix word). -/
def errMsg (word : String) (i : Nat) (r : Resp) : String :=
  word ++ " " ++ toString i ++ ": " ++ (r.error.getD "")

/-- One entry of `all_iterations` in refinement mode. -/
structure IterRec where
  iteration : Nat
  methods : List RankedCandidate
  latency : ℚ

/-- The result record `InferenceResult` of `engine.py` (refinement mode). -/
structure InferenceResult where
  finalRanking : List RankedCandidate
  iterationsUsed : Nat
  converged : Bool
  allIterations : List IterRec
  errors : List String
  totalLatency : ℚ

/-- The method names of the candidates a response parses to. -/
def extractNames (r : Resp) : List String :=
  (extract_top_k_methods r.parsedJson).map RankedCandidate.method

/-- The main loop of `run_zero_shot_iterative`, one recursive call per
iteration. `maxIter` is the configured `max_iterations`; `i` is the 1-based
iteration counter; `prev` is `prev_methods`; `iters`, `errs`, `lat` are the
accumulators. The remaining oracle responses are `rs`. -/
def zsLoop (maxIter : Nat) :
    Nat → List Resp → Option (List String) → List IterRec → List String → ℚ →
    InferenceResult
  | _, [], _, iters, errs, lat =>
    { finalRanking := ((iters.getLast?).map IterRec.methods).getD []
      iterationsUsed := maxIter
      converged := false
      allIterations := iters
      errors := errs
      totalLatency := lat }
  | i, r :: rest, prev, iters, errs, lat =>
    let lat' := lat + r.latency
    if respFailed r then
      zsLoop maxIter (i + 1) rest prev iters (errs ++ [errMsg ("Iteration") i r]) lat'
    else
      let methods := extract_top_k_methods r.parsedJson
      let names := methods.map RankedCandidate.method
      let iters' := iters ++ [⟨i, methods, r.latency⟩]
      if prev = some names then
        { finalRanking := methods
          iterationsUsed := i
          converged := true
          allIterations := iters'
          errors := errs
          totalLatency := lat' }
      else zsLoop maxIter (i + 1) rest (some names) iters' errs lat'

/-- Embeds `engine.run_zero_shot_iterative`: the loop runs `max_iterations`
times, one oracle call each, so a run is determined by the list of responses
the oracle would give (`max_iterations = responses.length`). -/
def run_zero_shot_iterative (responses : List Resp) : InferenceResult :=
  zsLoop responses.length 1 responses none [] [] 0

/-! ## Self-consistency strategy and the consensus aggregator
(`engine.run_self_consistency`, `engine._aggregate_results`) -/

/-- Per-method statistics record built by `_aggregate_results`:
`{"count": 0, "ranks": [], "justifications": []}`. -/
structure SEntry where
  count : Nat
  ranks : List Nat
  justifications : List String
deriving DecidableEq

/-- One statistics update:
`count += 1; ranks.append(rank); if justification: justifications.append`. -/
def updEntry (e : SEntry) (rank : Nat) (j : String) : SEntry :=
  { count := e.count + 1
    ranks := e.ranks ++ [rank]
    justifications := if j ≠ "" then e.justifications ++ [j] else e.justifications }

/-- Update of the `stats` dict at key `method` (insertion-ordered
association list: a new key is appended at the end, as in a Python dict). -/
def statUpd : List (String × SEntry) → String → Nat → String →
    List (String × SEntry)
  | [], m, rank, j => [(m, updEntry ⟨0, [], []⟩ rank j)]
  | (m', e) :: rest, m, rank, j =>
    if m' = m then (m', updEntry e rank j) :: rest
    else (m', e) :: statUpd rest m rank j

/-- The inner loop `for rank, item in enumerate(run["methods"], start=1)`:
the rank counts every item, and items with a falsy `method` are skipped. -/
def procItems : List (String × SEntry) → Nat → List RankedCandidate →
    List (String × SEntry)
  | stats, _, [] => stats
  | stats, rank, it :: rest =>
    if it.method = "" then procItems stats (rank + 1) rest
    else procItems (statUpd stats it.method rank it.justification) (rank + 1) rest

/-- The outer loop of `_aggregate_results` over the runs; each run is the
dict `{"run": idx, "methods": [...]}`, modelled as an index/candidate pair. -/
def buildStats (runs : List (Nat × List RankedCandidate)) :
    List (String × SEntry) :=
  runs.foldl (fun stats run => procItems stats 1 run.2) []

/-- Python `min(justifications, key=len)`: the first string of minimal
length (empty input gives `""`, the code's default). -/
def pickJust : List String → String
  | [] => ""
  | j :: js => pickJustGo j js
where
  /-- Tail of the minimum computation: keep the current best unless a
  strictly shorter string appears. -/
  pickJustGo : String → List String → String
  | best, [] => best
  | best, x :: xs =>
    if x.length < best.length then pickJustGo x xs else pickJustGo best xs

/-- One entry of the `items` list of `_aggregate_results`:
`(method, count, avg_rank, justification)`. -/
structure AggItem where
  method : String
  count : Nat
  avgRank : ℚ
  justification : String
deriving DecidableEq

/-- The `items` list: one tuple per `stats` entry, in dict insertion order,
with `avg_rank = sum(ranks) / len(ranks)`. -/
def itemsOf (stats : List (String × SEntry)) : List AggItem :=
  stats.map (fun pr =>
    { method := pr.1
      count := pr.2.count
      avgRank := ((pr.2.ranks.sum : Nat) : ℚ) / ((pr.2.ranks.length : Nat) : ℚ)
      justification := pickJust pr.2.justifications })

/-- The sort key order `key=lambda x: (-x[1], x[2])` of `_aggregate_results`:
`a` precedes (or ties with) `b` iff `(-a.count, a.avgRank) ≤ (-b.count,
b.avgRank)` lexicographically. -/
def aggKeyLE (a b : AggItem) : Prop :=
  b.count < a.count ∨ (a.count = b.count ∧ a.avgRank ≤ b.avgRank)

instance : DecidableRel aggKeyLE := fun a b => by
  unfold aggKeyLE
  infer_instance

instance : IsTotal AggItem aggKeyLE :=
  ⟨by
    intro a b
    unfold aggKeyLE
    rcases Nat.lt_trichotomy a.count b.count with h | h | h
    · exact Or.inr (Or.inl h)
    · rcases le_total a.avgRank b.avgRank with h' | h'
      · exact Or.inl (Or.inr ⟨h, h'⟩)
      · exact Or.inr (Or.inr ⟨h.symm, h'⟩)
    · exact Or.inl (Or.inl h)⟩

instance : IsTrans AggItem aggKeyLE :=
  ⟨by
    intro a b c hab hbc
    unfold aggKeyLE at *
    rcases hab with h | ⟨h1, h2⟩
    · rcases hbc with h' | ⟨h1', _⟩
      · exact Or.inl (h'.trans h)
      · exact Or.inl (h1' ▸ h)
    · rcases hbc with h' | ⟨h1', h2'⟩
      · exact Or.inl (h1 ▸ h')
      · exact Or.inr ⟨h1.trans h1', h2.trans h2'⟩⟩

/-- Embeds `engine._aggregate_results(runs, top_k)`: build the statistics,
sort the items by `(-count, avg_rank)` with a stable sort, truncate to
`top_k`, and keep `method` and `justification`. -/
def aggregate_results (runs : List (Nat × List RankedCandidate)) (top_k : Nat) :
    List RankedCandidate :=
  ((List.insertionSort aggKeyLE (itemsOf (buildStats runs))).take top_k).map
    (fun it => ⟨it.method, it.justification⟩)

/-- The collection loop of `run_self_consistency`: accumulate the parsed
runs (with their 1-based run index), the error records, and the latency. -/
def scGo : Nat → List Resp → List (Nat × List RankedCandidate) →
    List String → ℚ → List (Nat × List RankedCandidate) × List String × ℚ
  | _, [], runs, errs, lat => (runs, errs, lat)
  | i, r :: rest, runs, errs, lat =>
    let lat' := lat + r.latency
    if respFailed r then
      scGo (i + 1) rest runs (errs ++ [errMsg ("Run") i r]) lat'
    else
      scGo (i + 1) rest (runs ++ [(i, extract_top_k_methods r.parsedJson)]) errs lat'

/-- The result record of `run_self_consistency`; `all_iterations` holds the
run records here, so it gets its own result type. -/
structure SCResult where
  finalRanking : List RankedCandidate
  iterationsUsed : Nat
  converged : Bool
  allRuns : List (Nat × List RankedCandidate)
  errors : List String
  totalLatency : ℚ

/-- Embeds `engine.run_self_consistency`: `num_runs` oracle calls (one per
response in the list), aggregation, and a result that is always marked
`converged=True` with `iterations_used=num_runs`. -/
def run_self_consistency (responses : List Resp) (top_k : Nat) : SCResult :=
  let collected := scGo 1 responses [] [] 0
  { finalRanking := aggregate_results collected.1 top_k
    iterationsUsed := responses.length
    converged := true
    allRuns := collected.1
    errors := collected.2.1
    totalLatency := collected.2.2 }

/-! ## Specification-side views of the refinement loop -/

/-- The parsed candidate lists of the successful iterations, in order. -/
def succMethods (rs : List Resp) : List (List RankedCandidate) :=
  rs.filterMap (fun r =>
    if respFailed r then none else some (extract_top_k_methods r.parsedJson))

/-- The method-name sequences of the successful iterations, in order. -/
def succNames (rs : List Resp) : List (List String) :=
  rs.filterMap (fun r => if respFailed r then none else some (extractNames r))

/-- `chainOK prev ns` holds when walking the successful iterations' name
sequences `ns` from state `prev` (the last successful sequence so far, if
any) never meets the convergence condition `prev = some n`. -/
def chainOK : Option (List String) → List (List String) → Bool
  | _, [] => true
  | prev, n :: ns => decide (prev ≠ some n) && chainOK (some n) ns

/-- The name sequence of the last successful iteration, if any. -/
def lastSuccNames (rs : List Resp) : Option (List String) :=
  (succNames rs).getLast?

/-- The `prev_methods` state after processing name sequences `ns` starting
from state `prev` (without converging). -/
def updPrev (prev : Option (List String)) : List (List String) →
    Option (List String)
  | [] => prev
  | n :: ns => updPrev (some n) ns

/-- The iteration records a block of responses contributes to
`all_iterations`, when the 1-based counter starts at `i`. -/
def iterRecsFrom (i : Nat) : List Resp → List IterRec
  | [] => []
  | r :: rest =>
    if respFailed r then iterRecsFrom (i + 1) rest
    else ⟨i, extract_top_k_methods r.parsedJson, r.latency⟩ :: iterRecsFrom (i + 1) rest

/-- The error records a block of responses contributes, counter starting
at `i`. -/
def errsFrom (i : Nat) : List Resp → List String
  | [] => []
  | r :: rest =>
    if respFailed r then errMsg ("Iteration") i r :: errsFrom (i + 1) rest
    else errsFrom (i + 1) rest

/-- Total latency of a block of responses. -/
def latSum (rs : List Resp) : ℚ := (rs.map Resp.latency).sum

theorem succNames_cons (r : Resp) (rs : List Resp) :
    succNames (r :: rs) =
      if respFailed r then succNames rs else extractNames r :: succNames rs := by
  by_cases h : respFailed r <;> simp [succNames, List.filterMap_cons, h]

theorem succMethods_cons (r : Resp) (rs : List Resp) :
    succMethods (r :: rs) =
      if respFailed r then succMethods rs
      else extract_top_k_methods r.parsedJson :: succMethods rs := by
  by_cases h : respFailed r <;> simp [succMethods, List.filterMap_cons, h]

theorem updPrev_eq (ns : List (List String)) :
    ∀ prev, updPrev prev ns =
      match ns.getLast? with
      | some n => some n
      | none => prev := by
  induction ns with
  | nil => intro prev; simp [updPrev]
  | cons n ns ih =>
    intro prev
    cases ns with
    | nil => simp [updPrev]
    | cons n' ns' =>
      have h := ih prev
      simpa [updPrev, List.getLast?_cons_cons] using h

/-- Unfolding of the refinement loop over a block `pre` of responses that
does not trigger convergence. -/
theorem zsLoop_append (L : Nat) (pre : List Resp) :
    ∀ (rest : List Resp) (i : Nat) (prev : Option (List String))
      (iters : List IterRec) (errs : List String) (lat : ℚ),
      chainOK prev (succNames pre) = true →
      zsLoop L i (pre ++ rest) prev iters errs lat =
        zsLoop L (i + pre.length) rest (updPrev prev (succNames pre))
          (iters ++ iterRecsFrom i pre) (errs ++ errsFrom i pre)
          (lat + latSum pre) := by
  induction pre with
  | nil =>
    intro rest i prev iters errs lat _
    simp [succNames, updPrev, iterRecsFrom, errsFrom, latSum]
  | cons r pre ih =>
    intro rest i prev iters errs lat hchain
    by_cases hf : respFailed r
    · have hchain' : chainOK prev (succNames pre) = true := by
        simpa [succNames_cons, hf] using hchain
      have hstep : zsLoop L i ((r :: pre) ++ rest) prev iters errs lat =
          zsLoop L (i + 1) (pre ++ rest) prev iters
            (errs ++ [errMsg ("Iteration") i r]) (lat + r.latency) := by
        simp [zsLoop, hf]
      rw [hstep, ih _ _ _ _ _ _ hchain']
      simp [succNames_cons, hf, iterRecsFrom, errsFrom, latSum,
        List.append_assoc, Nat.add_assoc, Nat.add_comm, Nat.add_left_comm,
        add_assoc, add_comm, add_left_comm]
    · have hchain0 : chainOK prev (extractNames r :: succNames pre) = true := by
        simpa [succNames_cons, hf] using hchain
      have hne : prev ≠ some (extractNames r) := by
        have h := hchain0
        simp only [chainOK, Bool.and_eq_true, decide_eq_true_eq] at h
        exact h.1
      have hchain' : chainOK (some (extractNames r)) (succNames pre) = true := by
        have h := hchain0
        simp only [chainOK, Bool.and_eq_true] at h
        exact h.2
      have hstep : zsLoop L i ((r :: pre) ++ rest) prev iters errs lat =
          zsLoop L (i + 1) (pre ++ rest) (some (extractNames r))
            (iters ++ [⟨i, extract_top_k_methods r.parsedJson, r.latency⟩]) errs
            (lat + r.latency) := by
        simp only [List.cons_append, zsLoop, hf, Bool.false_eq_true, if_false]
        rw [if_neg (by simpa [extractNames] using hne)]
        rfl
      rw [hstep, ih _ _ _ _ _ _ hchain']
      simp [succNames_cons, hf, iterRecsFrom, errsFrom, latSum, updPrev,
        List.append_assoc, Nat.add_assoc, Nat.add_comm, Nat.add_left_comm,
        add_assoc, add_comm, add_left_comm]

theorem iterRecsFrom_map (rs : List Resp) :
    ∀ i, (iterRecsFrom i rs).map IterRec.methods = succMethods rs := by
  induction rs with
  | nil => intro i; simp [iterRecsFrom, succMethods]
  | cons r rest ih =>
    intro i
    by_cases hf : respFailed r <;>
      simp [iterRecsFrom, succMethods_cons, hf, ih]

/-- A converged result of the loop was produced at or after the iteration
counter the loop started from. -/
theorem zsLoop_used_ge (rs : List Resp) :
    ∀ (L i : Nat) (prev : Option (List String)) (iters : List IterRec)
      (errs : List String) (lat : ℚ),
      (zsLoop L i rs prev iters errs lat).converged = true →
      i ≤ (zsLoop L i rs prev iters errs lat).iterationsUsed := by
  induction rs with
  | nil =>
    intro L i prev iters errs lat h
    simp [zsLoop] at h
  | cons r rest ih =>
    intro L i prev iters errs lat h
    by_cases hf : respFailed r
    · have hstep : zsLoop L i (r :: rest) prev iters errs lat =
          zsLoop L (i + 1) rest prev iters
            (errs ++ [errMsg ("Iteration") i r]) (lat + r.latency) := by
        simp [zsLoop, hf]
      rw [hstep] at h ⊢
      exact Nat.le_trans (Nat.le_succ i) (ih L (i + 1) _ _ _ _ h)
    · by_cases hp :
        prev = some ((extract_top_k_methods r.parsedJson).map RankedCandidate.method)
      · have hstep : zsLoop L i (r :: rest) prev iters errs lat =
            { finalRanking := extract_top_k_methods r.parsedJson
              iterationsUsed := i
              converged := true
              allIterations :=
                iters ++ [⟨i, extract_top_k_methods r.parsedJson, r.latency⟩]
              errors := errs
              totalLatency := lat + r.latency } := by
          simp [zsLoop, hf, hp]
        rw [hstep]
      · have hstep : zsLoop L i (r :: rest) prev iters errs lat =
            zsLoop L (i + 1) rest
              (some ((extract_top_k_methods r.parsedJson).map RankedCandidate.method))
              (iters ++ [⟨i, extract_top_k_methods r.parsedJson, r.latency⟩]) errs
              (lat + r.latency) := by
          simp [zsLoop, hf, hp]
        rw [hstep] at h ⊢
        exact Nat.le_trans (Nat.le_succ i) (ih L (i + 1) _ _ _ _ h)

/-- The exhausted run: when no convergence condition fires, the loop runs to
the end and reports the last successful iteration's candidates (or `[]`). -/
theorem runZS_exhaust (rs : List Resp)
    (h : chainOK none (succNames rs) = true) :
    run_zero_shot_iterative rs =
      { finalRanking := ((succMethods rs).getLast?).getD []
        iterationsUsed := rs.length
        converged := false
        allIterations := iterRecsFrom 1 rs
        errors := errsFrom 1 rs
        totalLatency := 0 + latSum rs } := by
  unfold run_zero_shot_iterative
  have happ := zsLoop_append rs.length rs [] 1 none [] [] 0 h
  rw [List.append_nil] at happ
  rw [happ]
  have hlast : ((iterRecsFrom 1 rs).getLast?).map IterRec.methods =
      (succMethods rs).getLast? := by
    rw [← iterRecsFrom_map rs 1, List.getLast?_map]
  simp [zsLoop, hlast]

/-- C1. Convergence rule of the iterative refinement controller: with no
earlier convergence among the prefix `pre` of responses, and a successful
response `r` at iteration `pre.length + 1`, the run is marked converged at
this iteration exactly when a prior successful iteration exists and its
ordered `method_identifier` sequence equals this iteration's sequence; in
that case the final ranking is the new list and `iterations_used` is this
iteration's index. In particular a permutation of the previous successful
sequence that is not equal to it as an ordered sequence never converges
here. -/
theorem c1_convergence_rule :
    ∀ (pre : List Resp) (r : Resp) (rest : List Resp),
      respFailed r = false →
      chainOK none (succNames pre) = true →
      ((((run_zero_shot_iterative (pre ++ r :: rest)).converged = true) ∧
        (run_zero_shot_iterative (pre ++ r :: rest)).iterationsUsed =
          pre.length + 1)
        ↔ lastSuccNames pre = some (extractNames r))
      ∧ (lastSuccNames pre = some (extractNames r) →
          (run_zero_shot_iterative (pre ++ r :: rest)).finalRanking =
            extract_top_k_methods r.parsedJson)
      ∧ (∀ p, lastSuccNames pre = some p → p.Perm (extractNames r) →
          p ≠ extractNames r →
          ¬ ((run_zero_shot_iterative (pre ++ r :: rest)).converged = true ∧
            (run_zero_shot_iterative (pre ++ r :: rest)).iterationsUsed =
              pre.length + 1)) := by
  intro pre r rest hf hchain
  have hupd : updPrev none (succNames pre) = lastSuccNames pre := by
    rw [updPrev_eq]
    unfold lastSuccNames
    cases (succNames pre).getLast? <;> rfl
  have hpre : run_zero_shot_iterative (pre ++ r :: rest) =
      zsLoop (pre ++ r :: rest).length (1 + pre.length) (r :: rest)
        (lastSuccNames pre) ([] ++ iterRecsFrom 1 pre) ([] ++ errsFrom 1 pre)
        (0 + latSum pre) := by
    unfold run_zero_shot_iterative
    rw [zsLoop_append (pre ++ r :: rest).length pre (r :: rest) 1 none [] [] 0
      hchain, hupd]
  by_cases heq : lastSuccNames pre = some (extractNames r)
  · have heq' : lastSuccNames pre =
        some ((extract_top_k_methods r.parsedJson).map RankedCandidate.method) := by
      simpa [extractNames] using heq
    have hres : run_zero_shot_iterative (pre ++ r :: rest) =
        { finalRanking := extract_top_k_methods r.parsedJson
          iterationsUsed := 1 + pre.length
          converged := true
          allIterations := ([] ++ iterRecsFrom 1 pre) ++
            [⟨1 + pre.length, extract_top_k_methods r.parsedJson, r.latency⟩]
          errors := [] ++ errsFrom 1 pre
          totalLatency := (0 + latSum pre) + r.latency } := by
      rw [hpre]
      simp [zsLoop, hf, heq']
    refine ⟨⟨fun _ => heq, fun _ => ⟨by rw [hres], by rw [hres]; simp; omega⟩⟩,
      fun _ => by rw [hres], ?_⟩
    intro p hp _ hne _
    rw [heq] at hp
    exact hne (Option.some.inj hp).symm
  · have heq' : ¬ lastSuccNames pre =
        some ((extract_top_k_methods r.parsedJson).map RankedCandidate.method) := by
      simpa [extractNames] using heq
    have hres : run_zero_shot_iterative (pre ++ r :: rest) =
        zsLoop (pre ++ r :: rest).length (1 + pre.length + 1) rest
          (some ((extract_top_k_methods r.parsedJson).map RankedCandidate.method))
          (([] ++ iterRecsFrom 1 pre) ++
            [⟨1 + pre.length, extract_top_k_methods r.parsedJson, r.latency⟩])
          ([] ++ errsFrom 1 pre) ((0 + latSum pre) + r.latency) := by
      rw [hpre]
      simp [zsLoop, hf, heq']
    have hcontra : ¬ ((run_zero_shot_iterative (pre ++ r :: rest)).converged = true ∧
        (run_zero_shot_iterative (pre ++ r :: rest)).iterationsUsed =
          pre.length + 1) := by
      rintro ⟨hconv, hused⟩
      rw [hres] at hconv hused
      have hge := zsLoop_used_ge rest (pre ++ r :: rest).length
        (1 + pre.length + 1) _ _ _ _ hconv
      omega
    exact ⟨⟨fun hc => absurd hc hcontra, fun hr => absurd hr heq⟩,
      fun hr => absurd hr heq, fun p _ _ _ hc => hcontra hc⟩

/-- A successful oracle response whose parsed JSON ranks `X` then `Y`. -/
def respXY : Resp :=
  ⟨none,
    some [("top_k", Json.arr
      [Json.obj [("method", Json.str "X")],
       Json.obj [("method", Json.str "Y")]])], 0⟩

/-- Witness for C1 at a concrete two-iteration run: iteration 1 and
iteration 2 both return `[X, Y]`. -/
theorem c1_convergence_rule_witness :
    respFailed respXY = false ∧
    chainOK none (succNames [respXY]) = true ∧
    ((((run_zero_shot_iterative ([respXY] ++ respXY :: [])).converged = true) ∧
      (run_zero_shot_iterative ([respXY] ++ respXY :: [])).iterationsUsed =
        [respXY].length + 1)
      ↔ lastSuccNames [respXY] = some (extractNames respXY)) :=
  ⟨by decide, by decide,
    (c1_convergence_rule [respXY] respXY [] (by decide) (by decide)).1⟩

/-- C8. Error handling of the refinement controller: a failed iteration
(call error with nothing parseable) appends exactly one error record, keeps
`prev_methods` and the iteration history unchanged, and passes to the next
iteration; and a run in which the convergence condition never fires ends
not-converged with `iterations_used = max_iterations` and the last
successful iteration's candidates as final ranking (`[]` if every iteration
failed). -/
theorem c8_failed_iteration_and_exhaustion :
    (∀ (L i : Nat) (r : Resp) (rest : List Resp) (prev : Option (List String))
        (iters : List IterRec) (errs : List String) (lat : ℚ),
      respFailed r = true →
      zsLoop L i (r :: rest) prev iters errs lat =
        zsLoop L (i + 1) rest prev iters (errs ++ [errMsg ("Iteration") i r])
          (lat + r.latency))
    ∧ (∀ rs : List Resp, chainOK none (succNames rs) = true →
        (run_zero_shot_iterative rs).converged = false ∧
        (run_zero_shot_iterative rs).iterationsUsed = rs.length ∧
        (run_zero_shot_iterative rs).finalRanking =
          ((succMethods rs).getLast?).getD []) := by
  constructor
  · intro L i r rest prev iters errs lat hf
    simp [zsLoop, hf]
  · intro rs h
    rw [runZS_exhaust rs h]
    exact ⟨rfl, rfl, rfl⟩

/-- A failed oracle response: transport error, nothing parsed. -/
def respBoom : Resp := ⟨some ("boom"), none, 0⟩

/-- Witness for C8: one failing call, and the exhausted single-failure run. -/
theorem c8_failed_iteration_and_exhaustion_witness :
    respFailed respBoom = true ∧
    zsLoop 1 1 (respBoom :: []) none [] [] 0 =
      zsLoop 1 (1 + 1) [] none [] ([] ++ [errMsg ("Iteration") 1 respBoom])
        (0 + respBoom.latency) ∧
    chainOK none (succNames [respBoom]) = true ∧
    ((run_zero_shot_iterative [respBoom]).converged = false ∧
      (run_zero_shot_iterative [respBoom]).iterationsUsed = [respBoom].length ∧
      (run_zero_shot_iterative [respBoom]).finalRanking =
        ((succMethods [respBoom]).getLast?).getD []) :=
  ⟨by decide,
    c8_failed_iteration_and_exhaustion.1 1 1 respBoom [] none [] [] 0 (by decide),
    by decide,
    c8_failed_iteration_and_exhaustion.2 [respBoom] (by decide)⟩

theorem scGo_all_failed (rs : List Resp) :
    ∀ (i : Nat) (runs0 : List (Nat × List RankedCandidate))
      (errs : List String) (lat : ℚ),
      (∀ r ∈ rs, respFailed r = true) →
      (scGo i rs runs0 errs lat).1 = runs0 := by
  induction rs with
  | nil => intro i runs0 errs lat _; rfl
  | cons r rest ih =>
    intro i runs0 errs lat hall
    have hf : respFailed r = true := hall r (by simp)
    have hstep : scGo i (r :: rest) runs0 errs lat =
        scGo (i + 1) rest runs0 (errs ++ [errMsg ("Run") i r])
          (lat + r.latency) := by
      simp [scGo, hf]
    rw [hstep]
    exact ih (i + 1) runs0 _ _ (fun x hx => hall x (by simp [hx]))

/-- C10. The self-consistency strategy always reports `converged = True` and
`iterations_used = num_runs`, for every input; even when every round fails,
in which case the final ranking is empty. The flag reflects no stability
check. -/
theorem c10_self_consistency_always_converged :
    ∀ (rs : List Resp) (top_k : Nat),
      (run_self_consistency rs top_k).converged = true ∧
      (run_self_consistency rs top_k).iterationsUsed = rs.length ∧
      ((∀ r ∈ rs, respFailed r = true) →
        (run_self_consistency rs top_k).finalRanking = []) := by
  intro rs top_k
  refine ⟨rfl, rfl, ?_⟩
  intro hall
  have h0 : (scGo 1 rs [] [] 0).1 = [] := scGo_all_failed rs 1 [] [] 0 hall
  show aggregate_results (scGo 1 rs [] [] 0).1 top_k = []
  rw [h0]
  simp [aggregate_results, buildStats, itemsOf]

/-- Witness for C10 at a run of one failing round. -/
theorem c10_self_consistency_always_converged_witness :
    (∀ r ∈ [respBoom], respFailed r = true) ∧
    (run_self_consistency [respBoom] 5).converged = true ∧
    (run_self_consistency [respBoom] 5).iterationsUsed = [respBoom].length ∧
    (run_self_consistency [respBoom] 5).finalRanking = [] :=
  ⟨by decide,
    (c10_self_consistency_always_converged [respBoom] 5).1,
    (c10_self_consistency_always_converged [respBoom] 5).2.1,
    (c10_self_consistency_always_converged [respBoom] 5).2.2 (by decide)⟩

/-! ## Structure of `normalize_method` -/

theorem subOcc_iff (sep : List Char) :
    ∀ s, subOcc sep s = true ↔ sep <:+: s := by
  intro s
  induction s with
  | nil =>
    simp only [subOcc, List.isEmpty_iff]
    constructor
    · rintro rfl; exact List.infix_refl []
    · intro h
      exact List.eq_nil_of_infix_nil h
  | cons c rest ih =>
    simp only [subOcc, Bool.or_eq_true, List.isPrefixOf_iff_prefix, ih,
      List.infix_cons_iff]

theorem subOcc_eq_false_mono {sep t s : List Char} (hinf : t <:+: s)
    (hs : subOcc sep s = false) : subOcc sep t = false := by
  cases h : subOcc sep t with
  | false => rfl
  | true =>
    have : sep <:+: s := ((subOcc_iff sep t).1 h).trans hinf
    rw [(subOcc_iff sep s).2 this] at hs
    exact Bool.noConfusion hs

theorem subOcc_single (c : Char) :
    ∀ s, subOcc [c] s = true ↔ c ∈ s := by
  intro s
  induction s with
  | nil => simp [subOcc]
  | cons d rest ih =>
    simp only [subOcc, Bool.or_eq_true, ih, List.mem_cons]
    constructor
    · rintro (h | h)
      · left
        have := List.isPrefixOf_iff_prefix.1 h
        rcases this with ⟨u, hu⟩
        exact (List.cons.inj hu).1
    
      · right; exact h
    · rintro (rfl | h)
      · left
        exact List.isPrefixOf_iff_prefix.2 ⟨rest, rfl⟩
      · right; exact h

theorem afterLastGo_suffix (sep : List Char) :
    ∀ s, afterLastGo sep s <:+ s := by
  intro s
  induction s with
  | nil => exact List.suffix_refl []
  | cons c rest ih =>
    unfold afterLastGo
    split
    · exact ih.trans (List.suffix_cons c rest)
    · split
      · exact List.drop_suffix _ _
      · exact ih.trans (List.suffix_cons c rest)

theorem afterLastGo_no_sub (sep : List Char) (hsep : sep ≠ []) :
    ∀ s, subOcc sep (afterLastGo sep s) = false := by
  intro s
  induction s with
  | nil =>
    show subOcc sep [] = false
    simpa [subOcc, List.isEmpty_iff] using hsep
  | cons c rest ih =>
    unfold afterLastGo
    split
    · exact ih
    · rename_i h1
      split
      · have h1' : subOcc sep rest = false := by
          simp at h1
          exact h1
        have hsuf : (c :: rest).drop sep.length <:+ rest := by
          cases sep with
          | nil => exact absurd rfl hsep
          | cons a as =>
            simpa [List.drop_succ_cons] using List.drop_suffix as.length rest
        exact subOcc_eq_false_mono hsuf.isInfix h1'
      · exact ih

theorem stripSep_no_sub (sep : List Char) (hsep : sep ≠ []) (m : List Char) :
    subOcc sep (stripSep sep m) = false := by
  unfold stripSep
  split
  · exact afterLastGo_no_sub sep hsep m
  · rename_i h
    simpa using h

theorem stripSep_within (sep m : List Char) : stripSep sep m <:+: m := by
  unfold stripSep
  split
  · exact (afterLastGo_suffix sep m).isInfix
  · exact List.infix_refl m

theorem parenStrip_within (m : List Char) : parenStrip m <:+: m := by
  unfold parenStrip
  split
  · exact (List.takeWhile_prefix _).isInfix
  · exact List.infix_refl m

theorem parenStrip_no_paren (m : List Char) :
    subOcc ['('] (parenStrip m) = false := by
  unfold parenStrip
  split
  · cases h : subOcc ['('] (m.takeWhile (fun c => c ≠ '(')) with
    | false => rfl
    | true =>
      have hmem := (subOcc_single '(' _).1 h
      have := List.mem_takeWhile_imp hmem
      simp at this
  · rename_i h
    simpa using h

theorem trimChars_within (cs : List Char) : trimChars cs <:+: cs := by
  unfold trimChars
  have h1 : cs.dropWhile isSpaceChar <:+ cs := List.dropWhile_suffix _
  have h2 : ((cs.dropWhile isSpaceChar).reverse).dropWhile isSpaceChar <:+
      (cs.dropWhile isSpaceChar).reverse := List.dropWhile_suffix _
  have h3 : (((cs.dropWhile isSpaceChar).reverse).dropWhile isSpaceChar).reverse
      <+: cs.dropWhile isSpaceChar := by
    have h4 := List.reverse_prefix.mpr h2
    rw [List.reverse_reverse] at h4
    exact h4
  exact h3.isInfix.trans h1.isInfix

/-- The 26 ASCII lowercase letters (possible proper outputs of `lowerChar`). -/
def lowerOut : List Char :=
  ['a', 'b', 'c', 'd', 'e', 'f', 'g', 'h', 'i', 'j', 'k', 'l', 'm',
   'n', 'o', 'p', 'q', 'r', 's', 't', 'u', 'v', 'w', 'x', 'y', 'z']

theorem lowerChar_of_not_upper (c : Char) (h : c ∉ upperChars) :
    lowerChar c = c := by
  unfold lowerChar
  split
  all_goals first
    | rfl
    | exact absurd (by decide) h

theorem lowerChar_mem_lowerOut : ∀ c ∈ upperChars, lowerChar c ∈ lowerOut := by
  decide

theorem lowerOut_fixed : ∀ c ∈ lowerOut, lowerChar c = c := by
  decide

theorem lowerChar_idem (c : Char) : lowerChar (lowerChar c) = lowerChar c := by
  by_cases hc : c ∈ upperChars
  · exact lowerOut_fixed _ (lowerChar_mem_lowerOut c hc)
  · rw [lowerChar_of_not_upper c hc, lowerChar_of_not_upper c hc]

theorem lowerChar_eq_of_not_out (c d : Char) (hd : d ∉ lowerOut)
    (h : lowerChar c = d) : c = d := by
  by_cases hc : c ∈ upperChars
  · exact absurd (h ▸ lowerChar_mem_lowerOut c hc) hd
  · rw [lowerChar_of_not_upper c hc] at h
    exact h

theorem map_lowerChar_idem (v : List Char) :
    (v.map lowerChar).map lowerChar = v.map lowerChar := by
  rw [List.map_map]
  exact List.map_congr_left (fun a _ => lowerChar_idem a)

theorem map_infix_fixed {y t : List Char}
    (hy : y.map lowerChar = y) (ht : t <:+: y) : t.map lowerChar = t := by
  obtain ⟨a, b, h⟩ := ht
  rw [← h, List.map_append, List.map_append] at hy
  obtain ⟨h12, _⟩ := List.append_inj hy (by simp)
  obtain ⟨_, h2⟩ := List.append_inj h12 (by simp)
  exact h2

theorem subOcc_single_map (c : Char) (hc : c ∉ lowerOut) (v : List Char)
    (h : subOcc [c] (v.map lowerChar) = true) : subOcc [c] v = true := by
  rw [subOcc_single] at h ⊢
  obtain ⟨d, hd, hde⟩ := List.mem_map.1 h
  rwa [← lowerChar_eq_of_not_out d c hc hde]

theorem subOcc_colons_map (v : List Char)
    (h : subOcc [':', ':'] (v.map lowerChar) = true) :
    subOcc [':', ':'] v = true := by
  induction v with
  | nil =>
    simp [subOcc] at h
  | cons c rest ih =>
    simp only [List.map_cons, subOcc, Bool.or_eq_true] at h ⊢
    rcases h with h | h
    · left
      rw [List.isPrefixOf_iff_prefix] at h ⊢
      obtain ⟨u, hu⟩ := h
      cases rest with
      | nil => simp at hu
      | cons c2 rest2 =>
        simp only [List.map_cons, List.cons_append, List.nil_append,
          List.cons.injEq] at hu
        obtain ⟨hc1, hc2, _⟩ := hu
        have e1 : c = ':' :=
          lowerChar_eq_of_not_out c ':' (by decide) hc1.symm
        have e2 : c2 = ':' :=
          lowerChar_eq_of_not_out c2 ':' (by decide) hc2.symm
        subst e1; subst e2
        exact ⟨rest2, rfl⟩
    · right; exact ih h

theorem sepStripAll_eq (m : List Char) :
    sepStripAll m = stripSep ['.'] (stripSep [':', ':'] (stripSep ['#'] m)) := rfl

theorem subOcc_map_lower_false (c : Char) (hc : c ∉ lowerOut) (v : List Char)
    (hv : subOcc [c] v = false) : subOcc [c] (v.map lowerChar) = false := by
  cases h : subOcc [c] (v.map lowerChar) with
  | false => rfl
  | true =>
    rw [subOcc_single_map c hc v h] at hv
    exact Bool.noConfusion hv

theorem subOcc_colons_map_false (v : List Char)
    (hv : subOcc [':', ':'] v = false) :
    subOcc [':', ':'] (v.map lowerChar) = false := by
  cases h : subOcc [':', ':'] (v.map lowerChar) with
  | false => rfl
  | true =>
    rw [subOcc_colons_map v h] at hv
    exact Bool.noConfusion hv

/-- The output of `normalize_method` contains none of the separators, no
parenthesis opener, and is a fixed point of lower-casing. -/
theorem normChars_props (cs : List Char) :
    subOcc ['#'] (normChars cs) = false ∧
    subOcc [':', ':'] (normChars cs) = false ∧
    subOcc ['.'] (normChars cs) = false ∧
    subOcc ['('] (normChars cs) = false ∧
    (normChars cs).map lowerChar = normChars cs := by
  have hm1 : subOcc ['#'] (stripSep ['#'] (trimChars cs)) = false :=
    stripSep_no_sub _ (by decide) _
  have hm2col :
      subOcc [':', ':'] (stripSep [':', ':'] (stripSep ['#'] (trimChars cs))) = false :=
    stripSep_no_sub _ (by decide) _
  have hm2hash :
      subOcc ['#'] (stripSep [':', ':'] (stripSep ['#'] (trimChars cs))) = false :=
    subOcc_eq_false_mono (stripSep_within _ _) hm1
  have hm3dot :
      subOcc ['.'] (stripSep ['.'] (stripSep [':', ':'] (stripSep ['#'] (trimChars cs)))) = false :=
    stripSep_no_sub _ (by decide) _
  have hm3hash :
      subOcc ['#'] (stripSep ['.'] (stripSep [':', ':'] (stripSep ['#'] (trimChars cs)))) = false :=
    subOcc_eq_false_mono (stripSep_within _ _) hm2hash
  have hm3col :
      subOcc [':', ':'] (stripSep ['.'] (stripSep [':', ':'] (stripSep ['#'] (trimChars cs)))) = false :=
    subOcc_eq_false_mono (stripSep_within _ _) hm2col
  have hpinf :=
    parenStrip_within (stripSep ['.'] (stripSep [':', ':'] (stripSep ['#'] (trimChars cs))))
  have hphash := subOcc_eq_false_mono hpinf hm3hash
  have hpcol := subOcc_eq_false_mono hpinf hm3col
  have hpdot := subOcc_eq_false_mono hpinf hm3dot
  have hppar :=
    parenStrip_no_paren (stripSep ['.'] (stripSep [':', ':'] (stripSep ['#'] (trimChars cs))))
  refine ⟨?_, ?_, ?_, ?_, ?_⟩
  · simp only [normChars, sepStripAll_eq]
    exact subOcc_map_lower_false '#' (by decide) _ hphash
  · simp only [normChars, sepStripAll_eq]
    exact subOcc_colons_map_false _ hpcol
  · simp only [normChars, sepStripAll_eq]
    exact subOcc_map_lower_false '.' (by decide) _ hpdot
  · simp only [normChars, sepStripAll_eq]
    exact subOcc_map_lower_false '(' (by decide) _ hppar
  · exact map_lowerChar_idem _

/-- On an input with no separators, no `(`, and already lower-case,
`normalize_method` only strips whitespace. -/
theorem normChars_of_clean (y : List Char)
    (h1 : subOcc ['#'] y = false) (h2 : subOcc [':', ':'] y = false)
    (h3 : subOcc ['.'] y = false) (h4 : subOcc ['('] y = false)
    (h5 : y.map lowerChar = y) :
    normChars y = trimChars y := by
  have ht : trimChars y <:+: y := trimChars_within y
  have k1 := subOcc_eq_false_mono ht h1
  have k2 := subOcc_eq_false_mono ht h2
  have k3 := subOcc_eq_false_mono ht h3
  have k4 := subOcc_eq_false_mono ht h4
  have e1 : sepStripAll (trimChars y) = trimChars y := by
    rw [sepStripAll_eq]
    simp [stripSep, k1, k2, k3]
  have e2 : parenStrip (trimChars y) = trimChars y := by
    simp [parenStrip, k4]
  unfold normChars
  rw [e1, e2]
  exact map_infix_fixed h5 ht

/-- C9 counterexample. `normalize_method` is not idempotent: on `"a. b"` the
first application leaves the leading space of `" b"` (produced by cutting at
the last `.`), and the second application strips it. -/
theorem c9_not_idempotent_cex :
    normalize_method (normalize_method ("a. b")) ≠ normalize_method ("a. b") := by
  decide

/-- C9 (amended). A second application of `normalize_method` is exactly a
whitespace strip of the first result: `normalize ∘ normalize =
strip ∘ normalize`; idempotence holds exactly on inputs whose normalized
form carries no leading or trailing whitespace, e.g. `"org.B.bar()"`. -/
theorem c9_double_normalize_is_strip :
    (∀ s : String,
      normalize_method (normalize_method s) = pyStrip (normalize_method s)) ∧
    normalize_method (normalize_method ("org.B.bar()")) =
      normalize_method ("org.B.bar()") := by
  constructor
  · intro s
    obtain ⟨h1, h2, h3, h4, h5⟩ := normChars_props s.data
    show String.mk (normChars (normChars s.data)) =
      String.mk (trimChars (normChars s.data))
    rw [normChars_of_clean _ h1 h2 h3 h4 h5]
  · decide

/-- C5 counterexample. On `"a#b.c"` the code applies the `#` separator and
then *also* the `.` separator, returning `"c"`, while the claimed
first-separator-only rule returns `"b.c"`. -/
theorem c5_first_separator_cex :
    normalize_method ("a#b.c") = ("c") ∧
    normalizeFirstSepOnly ("a#b.c") = ("b.c") ∧
    normalize_method ("a#b.c") ≠ normalizeFirstSepOnly ("a#b.c") := by
  refine ⟨by decide, by decide, by decide⟩

/-- C5 (amended). `normalize_method` trims whitespace and then checks the
separators `#`, `::`, `.` in that fixed order, and for *each* separator that
is present (not only the first) keeps the substring after its last
occurrence, cumulatively; it then removes everything from the first `(` and
lower-cases. -/
theorem c5_normalize_applies_all_separators :
    (∀ s : String, normalize_method s =
      ⟨(parenStrip (stripSep ['.'] (stripSep [':', ':'] (stripSep ['#']
        (trimChars s.data))))).map lowerChar⟩) ∧
    normalize_method ("a#b.c") = ("c") ∧
    normalize_method (" Org.Foo#Bar::baz(int x) ") = ("baz") := by
  refine ⟨fun s => rfl, by decide, by decide⟩

/-- C4 counterexample. `evaluate_bug([], {"a"}, 5)` has
`tn = max(0, 5 - 0 - 0) = 5`, hence `accuracy = (0 + 5)/5 = 1`, not `0`. -/
theorem c4_empty_prediction_cex :
    (evaluate_bug [] (["a"]) 5).accuracy ≠ 0 := by
  have h1 : tpOf [] (["a"]) 5 = 0 := by decide
  have h4 : tnOf [] (["a"]) 5 = 5 := by decide
  unfold evaluate_bug
  rw [h1, h4]
  norm_num

/-- C4 (amended). Evaluating the empty prediction list against the truth set
`{"a"}` with `k = 5` gives all hit flags false and
`precision = recall = f1 = 0`, but `accuracy = 1`, because
`tn = max(0, k - tp - fp) = 5` and `accuracy = (tp + tn)/k = 1`. -/
theorem c4_empty_prediction_scoring :
    evaluate_bug [] (["a"]) 5 =
      { top_1 := false, top_3 := false, top_5 := false,
        precision := 0, «recall» := 0, f1 := 0, accuracy := 1 } := by
  have h1 : tpOf [] (["a"]) 5 = 0 := by decide
  have h2 : fpOf [] (["a"]) 5 = 0 := by decide
  have h3 : fnOf [] (["a"]) 5 = 1 := by decide
  have h4 : tnOf [] (["a"]) 5 = 5 := by decide
  have h5 : predNormOf [] 5 = [] := by decide
  unfold evaluate_bug
  rw [h1, h2, h3, h4, h5]
  simp [EvalResult.mk.injEq]

/-! ## C3: the two-level mean-of-means aggregate -/

theorem globalTotals_eq (f : EvalResult → ℚ)
    (projects : List (String × List EvalResult)) :
    globalTotals f projects =
      ((projects.map (fun pr => pr.2.length)).sum,
       (projects.map (fun pr => (pr.2.length : ℚ) * projectMean f pr.2)).sum) := by
  suffices h : ∀ (init : Nat × ℚ),
      projects.foldl
        (fun acc pr =>
          if pr.2.length = 0 then acc
          else (acc.1 + pr.2.length, acc.2 + projectMean f pr.2 * (pr.2.length : ℚ)))
        init =
      (init.1 + (projects.map (fun pr => pr.2.length)).sum,
       init.2 + (projects.map (fun pr => (pr.2.length : ℚ) * projectMean f pr.2)).sum) by
    have h0 := h (0, 0)
    simpa [globalTotals] using h0
  intro init
  induction projects generalizing init with
  | nil => simp
  | cons pr rest ih =>
    by_cases h0 : pr.2.length = 0
    · rw [List.foldl_cons, if_pos h0, ih]
      simp [h0]
    · rw [List.foldl_cons, if_neg h0, ih]
      simp only [List.map_cons, List.sum_cons, Prod.mk.injEq]
      constructor
      · omega
      · ring

/-- C3 (as claimed). Every corpus-wide average metric reported in the global
summary is the average of the per-project mean metrics weighted by the
project bug counts (a two-level mean-of-means); and it differs from the
pooled micro-average recomputed from raw tp/fp counts, as a two-bug corpus
shows (1/2 versus 1/5 for precision). -/
theorem c3_global_average_weighted_mean_of_means :
    (∀ (f : EvalResult → ℚ) (projects : List (String × List EvalResult)),
      globalAverage f projects = weightedMeanOfMeans f projects)
    ∧ globalAverage EvalResult.precision
        [(("p"), [evaluate_bug (["a"]) (["a"]) 5,
                  evaluate_bug (["x", "y", "z", "w"]) (["a"]) 5])] ≠
      pooledPrecision
        [((["a"]), (["a"]), 5), ((["x", "y", "z", "w"]), (["a"]), 5)] := by
  constructor
  · intro f projects
    unfold globalAverage weightedMeanOfMeans
    rw [globalTotals_eq]
  · have ha1 : tpOf (["a"]) (["a"]) 5 = 1 := by decide
    have ha2 : fpOf (["a"]) (["a"]) 5 = 0 := by decide
    have ha3 : fnOf (["a"]) (["a"]) 5 = 0 := by decide
    have hb1 : tpOf (["x", "y", "z", "w"]) (["a"]) 5 = 0 := by decide
    have hb2 : fpOf (["x", "y", "z", "w"]) (["a"]) 5 = 4 := by decide
    have hb3 : fnOf (["x", "y", "z", "w"]) (["a"]) 5 = 1 := by decide
    have hp1 : (evaluate_bug (["a"]) (["a"]) 5).precision = 1 := by
      unfold evaluate_bug
      rw [ha1, ha2]
      norm_num
    have hp2 : (evaluate_bug (["x", "y", "z", "w"]) (["a"]) 5).precision = 0 := by
      unfold evaluate_bug
      rw [hb1, hb2]
      norm_num
    unfold globalAverage globalTotals projectMean pooledPrecision
    simp [hp1, hp2, ha1, ha2, hb1, hb2]
    norm_num

/-! ## C7: shape of the parser output -/

theorem extractGo_eq (xs : List Json) :
    ∀ acc, extractGo xs acc = acc ++ xs.filterMap acceptEntry := by
  induction xs with
  | nil => intro acc; simp [extractGo]
  | cons item rest ih =>
    intro acc
    cases item with
    | obj fs =>
      by_cases ht : jTruthy
          (if jTruthy (jGetD fs ("method") (.str "")) then
            jGetD fs ("method") (.str "")
          else jGetD fs ("method_name") (.str "")) = true
      · simp only [extractGo, acceptEntry, ht, if_true, List.filterMap_cons, ih,
          List.append_assoc, List.singleton_append]
      · simp only [extractGo, acceptEntry, ht, if_false, List.filterMap_cons, ih,
          Bool.false_eq_true]
    | null => simp [extractGo, acceptEntry, List.filterMap_cons, ih]
    | bool b => simp [extractGo, acceptEntry, List.filterMap_cons, ih]
    | num n => simp [extractGo, acceptEntry, List.filterMap_cons, ih]
    | str s => simp [extractGo, acceptEntry, List.filterMap_cons, ih]
    | arr ys => simp [extractGo, acceptEntry, List.filterMap_cons, ih]

/-- C7 counterexample. The parser performs no deduplication: on a response
whose `top_k` repeats `{"method": "a"}` twice the ranked list contains two
entries with the same `method_identifier` (and with any `K < 2`, e.g. the
`K = 1` of a top-1 query, its length also exceeds `K`). -/
theorem c7_parser_duplicates_cex :
    extract_top_k_methods
        (some [("top_k", Json.arr
          [Json.obj [("method", Json.str "a")],
           Json.obj [("method", Json.str "a")]])]) =
      [⟨"a", ""⟩, ⟨"a", ""⟩] ∧
    ¬ ((extract_top_k_methods
        (some [("top_k", Json.arr
          [Json.obj [("method", Json.str "a")],
           Json.obj [("method", Json.str "a")]])])).map
        RankedCandidate.method).Nodup := by
  refine ⟨by decide, by decide⟩

/-- C7 (amended). The ranked list produced by the parser contains exactly one
entry, in order, for each `top_k` element that is a record with a truthy
`method` (or, as fallback, `method_name`) value — whitespace-trimmed, with
the trimmed `justification` defaulting to the empty string; entries without
such a value are dropped silently. Duplicates are *not* removed and the
length is bounded only by the length of `top_k`, not by `K`. -/
theorem c7_parser_output_shape :
    (extract_top_k_methods none = []) ∧
    (∀ (fields : List (String × Json)) (xs : List Json),
      jLookup fields ("top_k") = some (Json.arr xs) →
      extract_top_k_methods (some fields) = xs.filterMap acceptEntry) ∧
    (∀ xs : List Json,
      (extractGo xs []).length =
        (xs.filter (fun j => (acceptEntry j).isSome)).length) := by
  refine ⟨rfl, ?_, ?_⟩
  · intro fields xs h
    have hm : extract_top_k_methods (some fields) =
        match jLookup fields ("top_k") with
        | some (Json.arr xs) => extractGo xs []
        | some _ => []
        | none => extractGo [] [] := rfl
    rw [hm, h]
    simpa using extractGo_eq xs []
  · intro xs
    rw [extractGo_eq xs []]
    simp [List.length_filterMap_eq_countP, List.countP_eq_length_filter]

/-- Witness for C7 at the duplicated-entry response. -/
theorem c7_parser_output_shape_witness :
    jLookup [("top_k", Json.arr
          [Json.obj [("method", Json.str "a")],
           Json.obj [("method", Json.str "a")]])] ("top_k") =
      some (Json.arr [Json.obj [("method", Json.str "a")],
                      Json.obj [("method", Json.str "a")]]) ∧
    extract_top_k_methods
        (some [("top_k", Json.arr
          [Json.obj [("method", Json.str "a")],
           Json.obj [("method", Json.str "a")]])]) =
      [Json.obj [("method", Json.str "a")],
       Json.obj [("method", Json.str "a")]].filterMap acceptEntry :=
  ⟨by rfl,
    c7_parser_output_shape.2.1 _ _ (by rfl)⟩

/-! ## C2/C6: statistics of the consensus aggregator -/

/-- Lookup in the `stats` association list. -/
def statLookup : List (String × SEntry) → String → Option SEntry
  | [], _ => none
  | (m', e) :: rest, m => if m' = m then some e else statLookup rest m

/-- The statistics entry the aggregator holds for identifier `m` (the fresh
`{"count": 0, "ranks": [], "justifications": []}` if `m` never occurred). -/
def statEntry (runs : List (Nat × List RankedCandidate)) (m : String) : SEntry :=
  (statLookup (buildStats runs) m).getD ⟨0, [], []⟩

/-- The `count` statistic of identifier `m`. -/
def statCount (runs : List (Nat × List RankedCandidate)) (m : String) : Nat :=
  (statEntry runs m).count

/-- The `avg_rank` statistic of identifier `m`, as computed by the
aggregator's `sum(ranks) / len(ranks)`. -/
def statAvgRank (runs : List (Nat × List RankedCandidate)) (m : String) : ℚ :=
  (((statEntry runs m).ranks.sum : Nat) : ℚ) /
    (((statEntry runs m).ranks.length : Nat) : ℚ)

/-- The 1-based positions at which identifier `m` occurs in one round's
candidate list, the position counter starting at `rank`. -/
def occRanks (m : String) : Nat → List RankedCandidate → List Nat
  | _, [] => []
  | rank, it :: rest =>
    if it.method = m then rank :: occRanks m (rank + 1) rest
    else occRanks m (rank + 1) rest

/-- The non-empty justifications recorded for identifier `m` from one
round's candidate list, in order. -/
def occJusts (m : String) (ms : List RankedCandidate) : List String :=
  ((ms.filter (fun it => it.method = m)).map RankedCandidate.justification).filter
    (fun j => j ≠ "")

/-- Extension of a statistics entry by a block of ranks and justifications. -/
def entryExt (e : SEntry) (rks : List Nat) (js : List String) : SEntry :=
  ⟨e.count + rks.length, e.ranks ++ rks, e.justifications ++ js⟩

theorem statLookup_statUpd_same (stats : List (String × SEntry)) (m : String)
    (rank : Nat) (j : String) :
    statLookup (statUpd stats m rank j) m =
      some (updEntry ((statLookup stats m).getD ⟨0, [], []⟩) rank j) := by
  induction stats with
  | nil => simp [statUpd, statLookup]
  | cons pr rest ih =>
    obtain ⟨m', e⟩ := pr
    by_cases h : m' = m
    · subst h
      simp [statUpd, statLookup]
    · simp [statUpd, statLookup, h, ih]

theorem statLookup_statUpd_ne (stats : List (String × SEntry)) (key m : String)
    (rank : Nat) (j : String) (h : m ≠ key) :
    statLookup (statUpd stats key rank j) m = statLookup stats m := by
  have hne : ¬ (key = m) := fun hh => h hh.symm
  induction stats with
  | nil => simp [statUpd, statLookup, hne]
  | cons pr rest ih =>
    obtain ⟨m', e⟩ := pr
    by_cases h2 : m' = key
    · subst h2
      simp [statUpd, statLookup, hne]
    · simp [statUpd, statLookup, h2, ih]

theorem entryExt_ext (e : SEntry) (a c : List Nat) (b d : List String) :
    entryExt (entryExt e a b) c d = entryExt e (a ++ c) (b ++ d) := by
  simp [entryExt, List.append_assoc]
  omega

theorem statEntry_procItems (m : String) (hm : m ≠ "")
    (ms : List RankedCandidate) :
    ∀ (stats : List (String × SEntry)) (rank : Nat),
      (statLookup (procItems stats rank ms) m).getD ⟨0, [], []⟩ =
        entryExt ((statLookup stats m).getD ⟨0, [], []⟩)
          (occRanks m rank ms) (occJusts m ms) := by
  induction ms with
  | nil => intro stats rank; simp [procItems, occRanks, occJusts, entryExt]
  | cons it rest ih =>
    intro stats rank
    by_cases he : it.method = ""
    · have hne : ¬ it.method = m := by
        rw [he]; exact fun hh => hm hh.symm
      rw [show procItems stats rank (it :: rest) = procItems stats (rank + 1) rest
        from by simp [procItems, he]]
      rw [ih stats (rank + 1)]
      simp [occRanks, occJusts, hne, List.filter_cons]
    · by_cases hm2 : it.method = m
      · rw [show procItems stats rank (it :: rest) =
            procItems (statUpd stats it.method rank it.justification) (rank + 1) rest
          from by simp [procItems, he]]
        rw [ih _ (rank + 1), hm2, statLookup_statUpd_same]
        simp only [Option.getD_some]
        rw [show updEntry ((statLookup stats m).getD ⟨0, [], []⟩) rank it.justification
            = entryExt ((statLookup stats m).getD ⟨0, [], []⟩) [rank]
                (if it.justification ≠ "" then [it.justification] else [])
          from by by_cases hj : it.justification = "" <;> simp [updEntry, entryExt, hj]]
        rw [entryExt_ext]
        simp [occRanks, occJusts, hm2, List.filter_cons]
        by_cases hj : it.justification = "" <;> simp [hj]
      · rw [show procItems stats rank (it :: rest) =
            procItems (statUpd stats it.method rank it.justification) (rank + 1) rest
          from by simp [procItems, he]]
        rw [ih _ (rank + 1), statLookup_statUpd_ne _ _ _ _ _ (fun hh => hm2 hh.symm)]
        simp [occRanks, occJusts, hm2, List.filter_cons]

theorem statEntry_buildStats (m : String) (hm : m ≠ "")
    (runs : List (Nat × List RankedCandidate)) :
    ∀ stats0,
      (statLookup (runs.foldl (fun stats run => procItems stats 1 run.2) stats0) m).getD
          ⟨0, [], []⟩ =
        entryExt ((statLookup stats0 m).getD ⟨0, [], []⟩)
          ((runs.map (fun ru => occRanks m 1 ru.2)).flatten)
          ((runs.map (fun ru => occJusts m ru.2)).flatten) := by
  induction runs with
  | nil => intro stats0; simp [entryExt]
  | cons ru rest ih =>
    intro stats0
    rw [List.foldl_cons, ih (procItems stats0 1 ru.2),
      statEntry_procItems m hm ru.2 stats0 1, entryExt_ext]
    simp

/-- The entry the aggregator ends up holding for a (non-blank) identifier:
`count` additions one per occurrence, the concatenated 1-based ranks, and
the concatenated non-empty justifications, across the rounds in order. -/
theorem statEntry_eq (runs : List (Nat × List RankedCandidate)) (m : String)
    (hm : m ≠ "") :
    statEntry runs m =
      ⟨((runs.map (fun ru => occRanks m 1 ru.2)).flatten).length,
       (runs.map (fun ru => occRanks m 1 ru.2)).flatten,
       (runs.map (fun ru => occJusts m ru.2)).flatten⟩ := by
  unfold statEntry buildStats
  rw [statEntry_buildStats m hm runs []]
  simp [statLookup, entryExt]

/-- C6 (amended). The per-identifier `count` and `avg_rank` statistics of the
consensus aggregator are invariant under permuting the supplied rounds: they
are sums of per-round contributions. (The *output order* itself is not
invariant: identifiers that tie on `(count, avg_rank)` keep dict insertion
order, which depends on the round order — see the counterexample.) -/
theorem c6_aggregate_stats_permutation_invariant :
    ∀ (runs1 runs2 : List (Nat × List RankedCandidate)),
      (runs1.map Prod.snd).Perm (runs2.map Prod.snd) →
      ∀ m : String, m ≠ "" →
        statCount runs1 m = statCount runs2 m ∧
        statAvgRank runs1 m = statAvgRank runs2 m := by
  intro runs1 runs2 hperm m hm
  have hmap : ∀ runs : List (Nat × List RankedCandidate),
      runs.map (fun ru => occRanks m 1 ru.2) =
        (runs.map Prod.snd).map (fun ms => occRanks m 1 ms) := by
    intro runs; rw [List.map_map]; rfl
  have hp : (runs1.map (fun ru => occRanks m 1 ru.2)).Perm
      (runs2.map (fun ru => occRanks m 1 ru.2)) := by
    rw [hmap, hmap]
    exact hperm.map _
  have hlen :
      ((runs1.map (fun ru => occRanks m 1 ru.2)).flatten).length =
      ((runs2.map (fun ru => occRanks m 1 ru.2)).flatten).length := by
    rw [List.length_flatten, List.length_flatten]
    exact (hp.map List.length).sum_eq
  have hsum :
      ((runs1.map (fun ru => occRanks m 1 ru.2)).flatten).sum =
      ((runs2.map (fun ru => occRanks m 1 ru.2)).flatten).sum := by
    rw [List.sum_flatten, List.sum_flatten]
    exact (hp.map List.sum).sum_eq
  constructor
  · unfold statCount
    rw [statEntry_eq runs1 m hm, statEntry_eq runs2 m hm]
    exact hlen
  · unfold statAvgRank
    rw [statEntry_eq runs1 m hm, statEntry_eq runs2 m hm]
    simp only
    rw [hlen, hsum]

/-- Two single-candidate rounds: `a` first, then `b`. -/
def aggRunsAB : List (Nat × List RankedCandidate) :=
  [(1, [⟨"a", ""⟩]), (2, [⟨"b", ""⟩])]

/-- The same two rounds supplied in the opposite order. -/
def aggRunsBA : List (Nat × List RankedCandidate) :=
  [(1, [⟨"b", ""⟩]), (2, [⟨"a", ""⟩])]

/-- C6 counterexample. The aggregator output is *not* invariant under
permuting the rounds: with two tied single-candidate rounds, the output keeps
dict insertion order, i.e. the order in which the rounds were supplied. -/
theorem c6_aggregate_order_dependent_cex :
    (aggRunsAB.map Prod.snd).Perm (aggRunsBA.map Prod.snd) ∧
    aggregate_results aggRunsAB 10 = [⟨"a", ""⟩, ⟨"b", ""⟩] ∧
    aggregate_results aggRunsBA 10 = [⟨"b", ""⟩, ⟨"a", ""⟩] ∧
    aggregate_results aggRunsAB 10 ≠ aggregate_results aggRunsBA 10 := by
  have hsAB : buildStats aggRunsAB = [("a", ⟨1, [1], []⟩), ("b", ⟨1, [1], []⟩)] := by
    decide
  have hsBA : buildStats aggRunsBA = [("b", ⟨1, [1], []⟩), ("a", ⟨1, [1], []⟩)] := by
    decide
  have hiAB : itemsOf (buildStats aggRunsAB) =
      [⟨"a", 1, 1, ""⟩, ⟨"b", 1, 1, ""⟩] := by
    rw [hsAB]
    simp [itemsOf, pickJust]
  have hiBA : itemsOf (buildStats aggRunsBA) =
      [⟨"b", 1, 1, ""⟩, ⟨"a", 1, 1, ""⟩] := by
    rw [hsBA]
    simp [itemsOf, pickJust]
  have hleab : aggKeyLE ⟨"a", 1, 1, ""⟩ ⟨"b", 1, 1, ""⟩ := Or.inr ⟨rfl, le_refl 1⟩
  have hleba : aggKeyLE ⟨"b", 1, 1, ""⟩ ⟨"a", 1, 1, ""⟩ := Or.inr ⟨rfl, le_refl 1⟩
  have haggAB : aggregate_results aggRunsAB 10 = [⟨"a", ""⟩, ⟨"b", ""⟩] := by
    unfold aggregate_results
    rw [hiAB]
    simp [List.insertionSort, List.orderedInsert, hleab]
  have haggBA : aggregate_results aggRunsBA 10 = [⟨"b", ""⟩, ⟨"a", ""⟩] := by
    unfold aggregate_results
    rw [hiBA]
    simp [List.insertionSort, List.orderedInsert, hleba]
  refine ⟨by decide, haggAB, haggBA, ?_⟩
  rw [haggAB, haggBA]
  decide

/-- Witness for C6 at the two swapped rounds and identifier `a`. -/
theorem c6_aggregate_stats_permutation_invariant_witness :
    (aggRunsAB.map Prod.snd).Perm (aggRunsBA.map Prod.snd) ∧
    ("a" : String) ≠ "" ∧
    (statCount aggRunsAB ("a") = statCount aggRunsBA ("a") ∧
      statAvgRank aggRunsAB ("a") = statAvgRank aggRunsBA ("a")) :=
  ⟨by decide, by decide,
    c6_aggregate_stats_permutation_invariant aggRunsAB aggRunsBA (by decide)
      ("a") (by decide)⟩

/-- The 1-based position of the first occurrence of `m` in a round's
method-name list, the counter starting at `i`. -/
def firstPos (m : String) : Nat → List String → Option Nat
  | _, [] => none
  | i, n :: ns => if n = m then some i else firstPos m (i + 1) ns

/-- Modelled from the spec wording of C2: the 1-based positions of
identifier `m` in the rounds where it appears, in round order. -/
def positionsOf (runs : List (Nat × List RankedCandidate)) (m : String) :
    List Nat :=
  runs.filterMap (fun ru => firstPos m 1 (ru.2.map RankedCandidate.method))

theorem occRanks_of_not_mem (m : String) (ms : List RankedCandidate)
    (h : m ∉ ms.map RankedCandidate.method) :
    ∀ rank, occRanks m rank ms = [] := by
  induction ms with
  | nil => intro rank; rfl
  | cons it rest ih =>
    intro rank
    simp only [List.map_cons, List.mem_cons, not_or] at h
    have hne : ¬ it.method = m := fun hh => h.1 hh.symm
    simp only [occRanks, hne, if_false]
    exact ih h.2 (rank + 1)

theorem occRanks_of_nodup (m : String) (ms : List RankedCandidate)
    (h : (ms.map RankedCandidate.method).Nodup) :
    ∀ rank, occRanks m rank ms =
      (firstPos m rank (ms.map RankedCandidate.method)).toList := by
  induction ms with
  | nil => intro rank; rfl
  | cons it rest ih =>
    intro rank
    simp only [List.map_cons, List.nodup_cons] at h
    by_cases hm2 : it.method = m
    · have hnm : m ∉ rest.map RankedCandidate.method := hm2 ▸ h.1
      simp [occRanks, firstPos, hm2, occRanks_of_not_mem m rest hnm]
    · simp [occRanks, firstPos, hm2, ih h.2]

theorem flatten_occRanks_eq_positions (m : String)
    (runs : List (Nat × List RankedCandidate))
    (h : ∀ ru ∈ runs, (ru.2.map RankedCandidate.method).Nodup) :
    (runs.map (fun ru => occRanks m 1 ru.2)).flatten = positionsOf runs m := by
  induction runs with
  | nil => rfl
  | cons ru rest ih =>
    have h1 : (ru.2.map RankedCandidate.method).Nodup := h ru (by simp)
    have h2 : ∀ x ∈ rest, (x.2.map RankedCandidate.method).Nodup :=
      fun x hx => h x (by simp [hx])
    simp only [List.map_cons, List.flatten_cons, occRanks_of_nodup m ru.2 h1 1,
      positionsOf, List.filterMap_cons, ih h2]
    cases firstPos m 1 (ru.2.map RankedCandidate.method) <;>
      simp [positionsOf]

theorem firstPos_isSome (m : String) (ns : List String) :
    ∀ i, (firstPos m i ns).isSome = decide (m ∈ ns) := by
  induction ns with
  | nil => intro i; simp [firstPos]
  | cons n rest ih =>
    intro i
    by_cases h : n = m
    · subst h
      simp [firstPos]
    · have : ¬ m = n := fun hh => h hh.symm
      simp [firstPos, h, ih, this]

theorem positionsOf_length (m : String)
    (runs : List (Nat × List RankedCandidate)) :
    (positionsOf runs m).length =
      (runs.filter
        (fun ru => decide (m ∈ ru.2.map RankedCandidate.method))).length := by
  unfold positionsOf
  rw [List.length_filterMap_eq_countP, List.countP_eq_length_filter]
  congr 1
  apply List.filter_congr
  intro ru _
  exact firstPos_isSome m (ru.2.map RankedCandidate.method) 1

/-- The consensus-voting scenario of the specification:
R1 = [A, B], R2 = [B, A], R3 = [A]. -/
def c2ScenarioRuns : List (Nat × List RankedCandidate) :=
  [(1, [⟨"A", ""⟩, ⟨"B", ""⟩]),
   (2, [⟨"B", ""⟩, ⟨"A", ""⟩]),
   (3, [⟨"A", ""⟩])]

/-- C2 (amended). For rounds that list each identifier at most once, `count`
is the number of rounds in which the identifier appears and `avg_rank` is the
arithmetic mean of its 1-based positions in those rounds; the aggregator
sorts all identifiers by `(-count, avg_rank)` ascending and keeps the first
`K`; on the scenario R1 = [A, B], R2 = [B, A], R3 = [A] the output order is
[A, B]. (In general `count` counts *occurrences*, so a round that repeats an
identifier contributes more than one — see the counterexample.) -/
theorem c2_consensus_count_and_rank :
    (∀ (runs : List (Nat × List RankedCandidate)) (m : String), m ≠ "" →
      (∀ ru ∈ runs, (ru.2.map RankedCandidate.method).Nodup) →
      statCount runs m =
        (runs.filter
          (fun ru => decide (m ∈ ru.2.map RankedCandidate.method))).length ∧
      statAvgRank runs m =
        ((positionsOf runs m).sum : ℚ) / ((positionsOf runs m).length : ℚ))
    ∧ (∀ runs : List (Nat × List RankedCandidate),
        (List.insertionSort aggKeyLE (itemsOf (buildStats runs))).Sorted aggKeyLE)
    ∧ aggregate_results c2ScenarioRuns 10 = [⟨"A", ""⟩, ⟨"B", ""⟩] := by
  refine ⟨?_, ?_, ?_⟩
  · intro runs m hm hnd
    have hflat := flatten_occRanks_eq_positions m runs hnd
    constructor
    · unfold statCount
      rw [statEntry_eq runs m hm]
      simp only
      rw [hflat, positionsOf_length]
    · unfold statAvgRank
      rw [statEntry_eq runs m hm]
      simp only
      rw [hflat]
  · intro runs
    exact List.sorted_insertionSort aggKeyLE (itemsOf (buildStats runs))
  · have hs : buildStats c2ScenarioRuns =
        [("A", ⟨3, [1, 2, 1], []⟩), ("B", ⟨2, [2, 1], []⟩)] := by decide
    have hi : itemsOf (buildStats c2ScenarioRuns) =
        [⟨"A", 3, 4 / 3, ""⟩, ⟨"B", 2, 3 / 2, ""⟩] := by
      rw [hs]
      simp [itemsOf, pickJust]
      norm_num
    have hle : aggKeyLE ⟨"A", 3, 4 / 3, ""⟩ ⟨"B", 2, 3 / 2, ""⟩ :=
      Or.inl (by norm_num)
    unfold aggregate_results
    rw [hi]
    simp [List.insertionSort, List.orderedInsert, hle]

/-- C2 counterexample. `count` is not the number of distinct rounds an
identifier appears in: a single round repeating `a` twice yields
`count = 2` while `a` appears in only `1` round. -/
theorem c2_duplicate_round_cex :
    statCount [(1, [⟨"a", ""⟩, ⟨"a", ""⟩])] ("a") = 2 ∧
    ([(1, [⟨"a", ""⟩, ⟨"a", ""⟩])].filter
      (fun ru => decide (("a" : String) ∈ ru.2.map RankedCandidate.method))).length = 1 ∧
    statCount [(1, [⟨"a", ""⟩, ⟨"a", ""⟩])] ("a") ≠
      ([(1, [⟨"a", ""⟩, ⟨"a", ""⟩])].filter
        (fun ru => decide (("a" : String) ∈ ru.2.map RankedCandidate.method))).length := by
  refine ⟨by decide, by decide, by decide⟩

/-- Witness for C2 at the scenario rounds and identifier `A`. -/
theorem c2_consensus_count_and_rank_witness :
    ("A" : String) ≠ "" ∧
    (∀ ru ∈ c2ScenarioRuns, (ru.2.map RankedCandidate.method).Nodup) ∧
    (statCount c2ScenarioRuns ("A") =
        (c2ScenarioRuns.filter
          (fun ru => decide (("A" : String) ∈ ru.2.map RankedCandidate.method))).length ∧
      statAvgRank c2ScenarioRuns ("A") =
        ((positionsOf c2ScenarioRuns ("A")).sum : ℚ) /
          ((positionsOf c2ScenarioRuns ("A")).length : ℚ)) :=
  ⟨by decide, by decide,
    c2_consensus_count_and_rank.1 c2ScenarioRuns ("A") (by decide) (by decide)⟩
